import Mathlib

/-!
Verification of the sequential multi-source join input of this repository.

The repository snapshot holds the component's test suite
(`lib/input/sequence_test.go`); the component implementation itself
(`lib/input/sequence.go`) is not part of the snapshot, so the definitions
below are modelled from the specification's description of the component
(data model, merge resolver, shard assigner, chain driver, flush
controller), pinned to the concrete behaviour the test suite demands
wherever the tests exercise it.
-/

namespace SequenceJoin

/-- Modelled from the spec: a Record value is a scalar, a nested record, or
an ordered list of values (spec section 3, Record).  Scalars are modelled as
strings, which is the only scalar shape the component's sources (tabular
rows and string-valued documents) produce in the test suite. -/
inductive Value where
  | str : String → Value
  | list : List Value → Value
  | record : List (String × Value) → Value

/-- A Record: an ordered mapping from field name to value (spec section 3). -/
abbrev Rec := List (String × Value)

/-- Modelled from the spec: the three configurable merge strategies of the
Merge Resolver (spec section 4.3). -/
inductive MergeStrategy where
  | array : MergeStrategy
  | replace : MergeStrategy
  | keep : MergeStrategy
deriving DecidableEq

def Value.isRecord : Value → Bool
  | .record _ => true
  | _ => false

def Value.isList : Value → Bool
  | .list _ => true
  | _ => false

/-- First-match lookup in an ordered association list. -/
def lookupList {α : Type} : List (String × α) → String → Option α
  | [], _ => none
  | (k', v) :: rest, k => if k' = k then some v else lookupList rest k

mutual

/-- Modelled from the spec: field-level conflict resolution (spec section
4.3).  If both values are structured records they merge recursively by field
name regardless of strategy; otherwise the configured strategy resolves the
collision: `array` combines into an ordered list (appending when the
existing value is already a list), `replace` takes the incoming value,
`keep` retains the existing value. -/
def mergeValue (s : MergeStrategy) (ex inc : Value) : Value :=
  match ex, inc with
  | Value.record a, Value.record b => Value.record (mergeInto s a b)
  | e, i =>
    match s with
    | MergeStrategy.replace => i
    | MergeStrategy.keep => e
    | MergeStrategy.array =>
      match e with
      | Value.list xs => Value.list (xs ++ [i])
      | e' => Value.list [e', i]
termination_by (sizeOf inc, 0, 0)

/-- Modelled from the spec: merging an incoming record's fields into the
existing fields, invoking the resolver once per incoming field (spec
section 4.3). -/
def mergeInto (s : MergeStrategy) (fields : Rec) (inc : Rec) : Rec :=
  match inc with
  | [] => fields
  | (k, v) :: rest => mergeInto s (setField s fields k v) rest
termination_by (sizeOf inc, 2, 0)

/-- Modelled from the spec: writing one incoming field.  A field with no
existing value is set directly (no strategy applied); an existing value is
resolved through `mergeValue` (spec section 4.3, rule 3). -/
def setField (s : MergeStrategy) (fields : Rec) (k : String) (v : Value) : Rec :=
  match fields with
  | [] => [(k, v)]
  | (k', v') :: rest =>
    if k' = k then (k', mergeValue s v' v) :: rest
    else (k', v') :: setField s rest k v
termination_by (sizeOf v, 1, sizeOf fields)

end

/-- Modelled from the spec: a deterministic hash of the join key (spec
section 3, ShardID).  The source delegates hashing to an external hash
library; the modelled hash is a fixed polynomial string hash reduced modulo
a 64-bit machine word, which preserves every property the spec states
(pure, deterministic, depends only on the key). -/
def hashKey (s : String) : Nat :=
  s.data.foldl (fun h c => (h * 31 + c.toNat) % (2 ^ 64)) 5381

/-- Modelled from the spec: pure shard assignment, a deterministic hash of
the join key modulo the iteration count (spec section 4.2). -/
def shard (key : String) (iterations : Nat) : Nat :=
  hashKey key % iterations

/-- Modelled from the spec: the join key is the value extracted from the
configured id field path of a record; absence of the path (or a
non-scalar value there) is an error for that record (spec section 3,
JoinKey).  The test suite exercises single-segment paths only, so the path
is modelled as one field name. -/
def keyOf (idPath : String) (r : Rec) : Option String :=
  match lookupList r idPath with
  | some (Value.str s) => some s
  | _ => none

/-- Remove a field from a record (first-match semantics not needed: the
incoming records of the sources carry each field name once). -/
def eraseField (r : Rec) (k : String) : Rec :=
  r.filter (fun kv => kv.1 ≠ k)

/-- The Join Accumulator table: ordered key-to-fields mapping scoped to the
current shard/pass (spec section 3, AccumulatedEntry). -/
abbrev Accum := List (String × Rec)

/-- Replace the fields stored under an existing key. -/
def replaceEntry (acc : Accum) (k : String) (m : Rec) : Accum :=
  acc.map (fun kv => if kv.1 = k then (k, m) else kv)

/-- Modelled from the spec: folding one record into the Accumulator.  The
first record seen for a key creates the entry with its fields set directly;
a subsequent record for the key is merged into the entry through the Merge
Resolver (spec sections 3 and 4.3).  The configured id field is removed
from the incoming record before the merge — pinned by the test suite,
whose expected outputs keep the id field scalar under the `array` strategy
even when a key is seen several times.  Returns the updated table together
with the entry now stored for the key. -/
def accUpdate (s : MergeStrategy) (idPath : String) (acc : Accum) (k : String) (r : Rec) :
    Accum × Rec :=
  match lookupList acc k with
  | none => (acc ++ [(k, r)], r)
  | some old =>
    let m := mergeInto s old (eraseField r idPath)
    (replaceEntry acc k m, m)

/-- Modelled from the spec: the accumulator after the Driver feeds a list
of records through shard filtering into the Join Accumulator during one
pass (spec sections 4.1 and 4.2): a record outside the active shard is
dropped for the pass, a record lacking the join key is a fatal error. -/
def foldAcc (idPath : String) (s : MergeStrategy) (iterations pass : Nat) :
    List Rec → Accum → Option Accum
  | [], acc => some acc
  | r :: rs, acc =>
    match keyOf idPath r with
    | none => none
    | some k =>
      foldAcc idPath s iterations pass rs
        (if shard k iterations = pass then (accUpdate s idPath acc k r).1 else acc)

/-- One observable event of a join run: the Driver reading a record from
the chain, or the Flush Controller emitting one accumulated entry as a
single-record Transaction. -/
inductive JoinEvent where
  | readEv : Rec → JoinEvent
  | emitEv : String → Rec → JoinEvent

def JoinEvent.isRead : JoinEvent → Bool
  | .readEv _ => true
  | _ => false

def JoinEvent.isEmit : JoinEvent → Bool
  | .emitEv _ _ => true
  | _ => false

/-- The records read in a trace, in order. -/
def readRecs (tr : List JoinEvent) : List Rec :=
  tr.filterMap (fun e => match e with | .readEv r => some r | _ => none)

/-- The keys of the emitted Transactions of a trace, in order. -/
def emitKeys (tr : List JoinEvent) : List String :=
  tr.filterMap (fun e => match e with | .emitEv k _ => some k | _ => none)

/-- The emitted entries of a trace, in order. -/
def emitEntries (tr : List JoinEvent) : List (String × Rec) :=
  tr.filterMap (fun e => match e with | .emitEv k r => some (k, r) | _ => none)

/-- Modelled from the spec: the Sequential Chain Driver draining one
bounded source during a full-outer pass — every retained record is folded
into the Accumulator, nothing is emitted (spec sections 4.1 and 4.4).
Produces the read events together with the updated accumulator. -/
def drainSourceFO (idPath : String) (s : MergeStrategy) (iterations pass : Nat) :
    List Rec → Accum → Option (Accum × List JoinEvent)
  | [], acc => some (acc, [])
  | r :: rs, acc =>
    match keyOf idPath r with
    | none => none
    | some k =>
      match drainSourceFO idPath s iterations pass rs
          (if shard k iterations = pass then (accUpdate s idPath acc k r).1 else acc) with
      | none => none
      | some (accF, evs) => some (accF, JoinEvent.readEv r :: evs)

/-- Draining the whole configured chain, source after source, in order
(spec section 4.1). -/
def drainChainFO (idPath : String) (s : MergeStrategy) (iterations pass : Nat) :
    List (List Rec) → Accum → Option (Accum × List JoinEvent)
  | [], acc => some (acc, [])
  | src :: rest, acc =>
    match drainSourceFO idPath s iterations pass src acc with
    | none => none
    | some (acc', evs) =>
      match drainChainFO idPath s iterations pass rest acc' with
      | none => none
      | some (accF, evs') => some (accF, evs ++ evs')

/-- Modelled from the spec: one full-outer pass — the chain is drained to
exhaustion with no emission, then the Flush Controller iterates the
Accumulator and emits every entry exactly once (spec section 4.4). -/
def runFullOuterPass (idPath : String) (s : MergeStrategy) (iterations pass : Nat)
    (sources : List (List Rec)) : Option (List JoinEvent) :=
  match drainChainFO idPath s iterations pass sources [] with
  | none => none
  | some (acc, evs) => some (evs ++ acc.map (fun kv => JoinEvent.emitEv kv.1 kv.2))

/-- Modelled from the spec: multi-pass operation — the whole chain is
restarted from position zero once per pass, pass `i` owning shard `i`, and
the pass results are delivered in sequence (spec sections 2 and 4.1). -/
def passResults (iterations : Nat) (f : Nat → Option (List JoinEvent)) :
    Option (List JoinEvent) :=
  ((List.range iterations).mapM f).map List.flatten

/-- The complete full-outer join run. -/
def runFullOuterAll (idPath : String) (s : MergeStrategy) (iterations : Nat)
    (sources : List (List Rec)) : Option (List JoinEvent) :=
  passResults iterations (fun pass => runFullOuterPass idPath s iterations pass sources)

/-- Modelled from the spec: the final source under the outer join type —
each retained record read from the final source is merged into the entry
for its key (created if absent) and the merged entry is emitted
immediately, the entry remaining in the Accumulator (spec section 4.4).
Returns the final accumulator and the emitted `(key, entry)` Transactions
in read order. -/
def drainFinalOuter (idPath : String) (s : MergeStrategy) (iterations pass : Nat) :
    List Rec → Accum → Option (Accum × List (String × Rec))
  | [], acc => some (acc, [])
  | r :: rs, acc =>
    match keyOf idPath r with
    | none => none
    | some k =>
      if shard k iterations = pass then
        let u := accUpdate s idPath acc k r
        match drainFinalOuter idPath s iterations pass rs u.1 with
        | none => none
        | some (accF, emits) => some (accF, (k, u.2) :: emits)
      else
        drainFinalOuter idPath s iterations pass rs acc

/-- Modelled from the spec: one outer-join pass — all non-final sources are
folded into the Accumulator without emission, then the final source
triggers one emission per retained record (spec section 4.4). -/
def runOuterPass (idPath : String) (s : MergeStrategy) (iterations pass : Nat)
    (earlier : List (List Rec)) (finalSrc : List Rec) : Option (List JoinEvent) :=
  match foldAcc idPath s iterations pass earlier.flatten [] with
  | none => none
  | some acc =>
    match drainFinalOuter idPath s iterations pass finalSrc acc with
    | none => none
    | some (_, emits) => some (emits.map (fun kv => JoinEvent.emitEv kv.1 kv.2))

/-- The complete outer join run. -/
def runOuterAll (idPath : String) (s : MergeStrategy) (iterations : Nat)
    (earlier : List (List Rec)) (finalSrc : List Rec) : Option (List JoinEvent) :=
  passResults iterations (fun pass => runOuterPass idPath s iterations pass earlier finalSrc)

/-- The accumulated entry stored for a key after feeding a list of records
into an empty single-pass Accumulator: the reference for cumulative state. -/
def entryAfter (idPath : String) (s : MergeStrategy) (recs : List Rec) (k : String) :
    Option Rec :=
  match foldAcc idPath s 1 0 recs [] with
  | none => none
  | some acc => lookupList acc k

/-- Modelled from the spec: the `sharded_join` configuration surface (spec
section 6) with the defaults the test suite exercises — a join is disabled
until an id path is configured, the iteration count defaults to one pass,
and an unset merge strategy behaves as `array` (pinned by the test
`TestSequenceJoins`, which configures no merge strategy and expects array
collision semantics). -/
structure ShardedJoinConfig where
  jtype : String
  idPath : String
  iterations : Nat
  mergeStrategy : String
deriving DecidableEq

/-- The configuration produced before any field is set. -/
def defaultShardedJoinConfig : ShardedJoinConfig :=
  { jtype := "none", idPath := "", iterations := 1, mergeStrategy := "array" }

/-- The two join types of the Flush Controller (spec section 4.4). -/
inductive JoinType where
  | fullOuter : JoinType
  | outer : JoinType
deriving DecidableEq

/-- Modelled from the spec: resolving the configured `type` string to a
join type.  The spec documents the spellings `outer` and `full-outer`; the
test suite (the code of record in this snapshot) configures the legacy
spellings `outter` and `full-outter` and requires them to be accepted with
the same semantics, so the resolver recognises both spellings of each join
type.  Any other string selects no join type. -/
def joinTypeOfString (t : String) : Option JoinType :=
  if t = "full-outter" ∨ t = "full-outer" then some JoinType.fullOuter
  else if t = "outter" ∨ t = "outer" then some JoinType.outer
  else none

/-- Modelled from the spec: resolving the configured merge strategy string
(spec section 6). -/
def strategyOfString (m : String) : Option MergeStrategy :=
  if m = "array" then some MergeStrategy.array
  else if m = "replace" then some MergeStrategy.replace
  else if m = "keep" then some MergeStrategy.keep
  else none

/-- Modelled from the spec: an empty id path leaves the chain in
passthrough mode; a configured id path enables join mode (spec section 6). -/
def joinEnabled (c : ShardedJoinConfig) : Bool :=
  c.idPath ≠ ""

/-- The configuration the join tests build: defaults with the type, id path
and iteration count set. -/
def enabledJoinConfig (t idp : String) (iters : Nat) : ShardedJoinConfig :=
  { defaultShardedJoinConfig with jtype := t, idPath := idp, iterations := iters }

/-- One observable event of a passthrough chain run: a Transaction handed
downstream carrying a batch of raw messages, the consumer's
acknowledgement of the pending Transaction, or the component reporting
terminal closure (spec sections 4.5 and 6). -/
inductive SeqEvent where
  | emit : List String → SeqEvent
  | ack : SeqEvent
  | closed : SeqEvent
deriving DecidableEq

/-- Modelled from the spec: draining one bounded plain-text source in
passthrough mode — every record is wrapped as a single-record batch and
handed downstream, and the Emitter blocks until the consumer acknowledges
it before the next read (spec sections 4.1 and 4.5); the consumer of the
test suite always commits. -/
def drainSource (msgs : List String) : List SeqEvent :=
  msgs.foldr (fun m evs => SeqEvent.emit [m] :: SeqEvent.ack :: evs) []

/-- Modelled from the spec: the Sequential Chain Driver over sources whose
backing resource may not be available yet.  An available source is drained
to exhaustion before the next source is opened; a missing source blocks
the whole chain at that position — the Driver keeps retrying the open and
emits nothing further until the resource appears, and only a fully drained
chain reports closure (spec sections 4.1 and 7, SourceNotReady).  Returns
the events produced so far and, when blocked, the remaining chain suffix
starting at the missing source. -/
def driveChain : List (Option (List String)) → List SeqEvent × Option (List (Option (List String)))
  | [] => ([SeqEvent.closed], none)
  | none :: rest => ([], some (none :: rest))
  | some msgs :: rest =>
    let (evs, rem) := driveChain rest
    (drainSource msgs ++ evs, rem)

/-- The passthrough run of a chain whose sources are all available. -/
def drivePassthrough (sources : List (List String)) : List SeqEvent :=
  (driveChain (sources.map some)).1

/-- The batches emitted in a passthrough trace, in order. -/
def batchesOf (evs : List SeqEvent) : List (List String) :=
  evs.filterMap (fun e => match e with | .emit b => some b | _ => none)

/-- Every Transaction is acknowledged before anything further happens and
the trace ends with the terminal closure report: the ack-gated delivery
discipline of the Transactional Emitter (spec section 4.5). -/
def wellAcked : List SeqEvent → Bool
  | [SeqEvent.closed] => true
  | SeqEvent.emit _ :: SeqEvent.ack :: rest => wellAcked rest
  | _ => false

/-- The shard a record is assigned to: the shard of its join key. -/
def shardOfRecord (idPath : String) (r : Rec) (iterations : Nat) : Option Nat :=
  (keyOf idPath r).map (fun k => shard k iterations)

/-- The keys of the accumulator entries, in table order. -/
def keysA (acc : Accum) : List String :=
  acc.map Prod.fst

/-- Concrete run data: the spec's full-outer scenario, source A carrying
keys a, b, c and source B carrying keys a, c with non-colliding fields. -/
def sampleJoinSources : List (List Rec) :=
  [[[("id", Value.str "a"), ("f1", Value.str "1")],
    [("id", Value.str "b"), ("f1", Value.str "2")],
    [("id", Value.str "c"), ("f1", Value.str "3")]],
   [[("id", Value.str "a"), ("f2", Value.str "4")],
    [("id", Value.str "c"), ("f2", Value.str "5")]]]

/-- The trace the modelled full-outer run produces on `sampleJoinSources`. -/
def sampleJoinTrace : List JoinEvent :=
  [JoinEvent.readEv [("id", Value.str "a"), ("f1", Value.str "1")],
   JoinEvent.readEv [("id", Value.str "b"), ("f1", Value.str "2")],
   JoinEvent.readEv [("id", Value.str "c"), ("f1", Value.str "3")],
   JoinEvent.readEv [("id", Value.str "a"), ("f2", Value.str "4")],
   JoinEvent.readEv [("id", Value.str "c"), ("f2", Value.str "5")],
   JoinEvent.emitEv "a"
     [("id", Value.str "a"), ("f1", Value.str "1"), ("f2", Value.str "4")],
   JoinEvent.emitEv "b" [("id", Value.str "b"), ("f1", Value.str "2")],
   JoinEvent.emitEv "c"
     [("id", Value.str "c"), ("f1", Value.str "3"), ("f2", Value.str "5")]]

/-- Concrete run data: an outer-join chain with one earlier source and a
final source that hits key a twice and key b once. -/
def sampleOuterEarlier : List (List Rec) :=
  [[[("id", Value.str "a"), ("x", Value.str "1")]]]

/-- The final source of the concrete outer-join run. -/
def sampleOuterFinal : List Rec :=
  [[("id", Value.str "a"), ("y", Value.str "2")],
   [("id", Value.str "b"), ("z", Value.str "3")],
   [("id", Value.str "a"), ("y", Value.str "4")]]

/-- The trace the modelled outer run produces on the concrete chain: one
emission per final-source record, the repeated key a reflecting cumulative
state. -/
def sampleOuterTrace : List JoinEvent :=
  [JoinEvent.emitEv "a"
     [("id", Value.str "a"), ("x", Value.str "1"), ("y", Value.str "2")],
   JoinEvent.emitEv "b" [("id", Value.str "b"), ("z", Value.str "3")],
   JoinEvent.emitEv "a"
     [("id", Value.str "a"), ("x", Value.str "1"),
      ("y", Value.list [Value.str "2", Value.str "4"])]]

/-! ## Library lemmas on the association-list primitives -/

@[simp] theorem lookupList_nil {α : Type} (k : String) :
    lookupList ([] : List (String × α)) k = none := rfl

theorem lookupList_cons {α : Type} (k' k : String) (v : α) (rest : List (String × α)) :
    lookupList ((k', v) :: rest) k = if k' = k then some v else lookupList rest k := rfl

theorem lookupList_none_iff {α : Type} (fields : List (String × α)) (k : String) :
    lookupList fields k = none ↔ k ∉ fields.map Prod.fst := by
  induction fields with
  | nil => simp
  | cons kv rest ih =>
    obtain ⟨k', v⟩ := kv
    rw [lookupList_cons]
    by_cases hk : k' = k
    · subst hk
      simp
    · simp only [if_neg hk, List.map_cons, List.mem_cons, not_or, ih]
      constructor
      · exact fun h => ⟨fun he => hk he.symm, h⟩
      · exact fun h => h.2

theorem lookupList_append_of_none {α : Type} (xs ys : List (String × α)) (k : String)
    (h : lookupList xs k = none) : lookupList (xs ++ ys) k = lookupList ys k := by
  induction xs with
  | nil => rfl
  | cons kv rest ih =>
    obtain ⟨k', v⟩ := kv
    rw [lookupList_cons] at h
    by_cases hk : k' = k
    · simp [hk] at h
    · simp only [List.cons_append, lookupList_cons, if_neg hk] at *
      exact ih h

/-! ## Lemmas on the Merge Resolver -/

theorem setField_of_lookup_none (s : MergeStrategy) (fields : Rec) (k : String) (v : Value)
    (h : lookupList fields k = none) : setField s fields k v = fields ++ [(k, v)] := by
  induction fields with
  | nil => simp [setField]
  | cons kv rest ih =>
    obtain ⟨k', v'⟩ := kv
    rw [lookupList_cons] at h
    by_cases hk : k' = k
    · simp [hk] at h
    · simp only [if_neg hk] at h
      simp [setField, hk, ih h]

theorem lookupList_setField_none (s : MergeStrategy) (fields : Rec) (k : String) (v : Value)
    (h : lookupList fields k = none) : lookupList (setField s fields k v) k = some v := by
  rw [setField_of_lookup_none s fields k v h, lookupList_append_of_none _ _ _ h,
    lookupList_cons, if_pos rfl]

theorem lookupList_setField_some (s : MergeStrategy) (fields : Rec) (k : String) (v old : Value)
    (h : lookupList fields k = some old) :
    lookupList (setField s fields k v) k = some (mergeValue s old v) := by
  induction fields with
  | nil => simp [lookupList] at h
  | cons kv rest ih =>
    obtain ⟨k', v'⟩ := kv
    rw [lookupList_cons] at h
    by_cases hk : k' = k
    · rw [if_pos hk] at h
      injection h with h
      subst hk h
      simp [setField, lookupList_cons]
    · rw [if_neg hk] at h
      simp [setField, hk, lookupList_cons, ih h]

theorem lookupList_setField_ne (s : MergeStrategy) (fields : Rec) (k k2 : String) (v : Value)
    (h : k ≠ k2) : lookupList (setField s fields k v) k2 = lookupList fields k2 := by
  induction fields with
  | nil => simp [setField, lookupList_cons, h]
  | cons kv rest ih =>
    obtain ⟨k', v'⟩ := kv
    by_cases hk : k' = k
    · subst hk
      simp [setField, lookupList_cons, h]
    · simp [setField, hk, lookupList_cons, ih]

theorem mergeInto_lookup (s : MergeStrategy) (b : Rec) (a : Rec) (k : String)
    (hb : (b.map Prod.fst).Nodup) :
    lookupList (mergeInto s a b) k =
      match lookupList a k, lookupList b k with
      | some x, some y => some (mergeValue s x y)
      | some x, none => some x
      | none, o => o := by
  induction b generalizing a with
  | nil =>
    simp only [mergeInto]
    cases lookupList a k <;> rfl
  | cons kv rest ih =>
    obtain ⟨kb, vb⟩ := kv
    simp only [List.map_cons, List.nodup_cons] at hb
    have hrest : lookupList rest kb = none :=
      (lookupList_none_iff rest kb).2 hb.1
    rw [show mergeInto s a ((kb, vb) :: rest) = mergeInto s (setField s a kb vb) rest from by
      simp [mergeInto]]
    rw [ih (setField s a kb vb) hb.2]
    by_cases hk : kb = k
    · subst hk
      rw [hrest, lookupList_cons, if_pos rfl]
      cases ha : lookupList a kb with
      | none => rw [lookupList_setField_none s a kb vb ha]
      | some old => rw [lookupList_setField_some s a kb vb old ha]
    · rw [lookupList_setField_ne s a kb k vb hk, lookupList_cons, if_neg hk]

/-! ## Claims about the Merge Resolver -/

/-- C3: under merge strategy `array`, a field's first value is set directly
as written (no strategy applied); the first collision turns the field into
the two-element list of existing and incoming value; each further
collision appends the incoming value to the existing list. -/
theorem merge_array_first_write_and_collisions (fields : Rec) (k : String) (v : Value) :
    (lookupList fields k = none →
      setField MergeStrategy.array fields k v = fields ++ [(k, v)])
    ∧ (∀ a : String,
        mergeValue MergeStrategy.array (Value.str a) v = Value.list [Value.str a, v])
    ∧ (∀ xs : List Value,
        mergeValue MergeStrategy.array (Value.list xs) v = Value.list (xs ++ [v])) := by
  refine ⟨fun h => setField_of_lookup_none _ _ _ _ h, fun a => ?_, fun xs => ?_⟩ <;>
    simp [mergeValue]

/-- Witness for C3 at the spec's concrete example: the first write of `x`
stays scalar, a collision with `y` gives the pair list, and a further
collision with `z` appends. -/
theorem merge_array_first_write_and_collisions_witness :
    lookupList ([] : Rec) "f" = none
    ∧ setField MergeStrategy.array [] "f" (Value.str "x") = [("f", Value.str "x")]
    ∧ mergeValue MergeStrategy.array (Value.str "x") (Value.str "y")
        = Value.list [Value.str "x", Value.str "y"]
    ∧ mergeValue MergeStrategy.array (Value.list [Value.str "x", Value.str "y"])
        (Value.str "z")
        = Value.list [Value.str "x", Value.str "y", Value.str "z"] :=
  ⟨rfl,
   (merge_array_first_write_and_collisions [] "f" (Value.str "x")).1 rfl,
   (merge_array_first_write_and_collisions [] "f" (Value.str "y")).2.1 "x",
   by simpa using
     (merge_array_first_write_and_collisions [] "f" (Value.str "z")).2.2
       [Value.str "x", Value.str "y"]⟩

/-- C4: on a field collision of two non-record values, strategy `replace`
keeps the incoming value (last writer wins) and strategy `keep` keeps the
existing value (first writer wins, the incoming value is discarded). -/
theorem merge_replace_and_keep_collisions (e v : Value) (he : e.isRecord = false)
    (hv : v.isRecord = false) :
    mergeValue MergeStrategy.replace e v = v ∧ mergeValue MergeStrategy.keep e v = e := by
  cases e <;> simp_all [mergeValue, Value.isRecord]

/-- Witness for C4 on two scalar values. -/
theorem merge_replace_and_keep_collisions_witness :
    (Value.str "a").isRecord = false
    ∧ (Value.str "b").isRecord = false
    ∧ mergeValue MergeStrategy.replace (Value.str "a") (Value.str "b") = Value.str "b"
    ∧ mergeValue MergeStrategy.keep (Value.str "a") (Value.str "b") = Value.str "a" :=
  ⟨rfl, rfl,
   (merge_replace_and_keep_collisions (Value.str "a") (Value.str "b") rfl rfl).1,
   (merge_replace_and_keep_collisions (Value.str "a") (Value.str "b") rfl rfl).2⟩

/-- C5: when both the existing and the incoming value of a field are
structured records they merge recursively by field name under every
strategy: the merged record's value at each field name combines the two
sides' values field-wise (resolving inner collisions through the resolver),
and this deep merge is what every strategy performs on record-record
collisions. -/
theorem record_collision_deep_merges_by_field (s : MergeStrategy) (a b : Rec)
    (hb : (b.map Prod.fst).Nodup) :
    mergeValue s (Value.record a) (Value.record b) = Value.record (mergeInto s a b)
    ∧ ∀ k, lookupList (mergeInto s a b) k =
        match lookupList a k, lookupList b k with
        | some x, some y => some (mergeValue s x y)
        | some x, none => some x
        | none, o => o :=
  ⟨by simp [mergeValue], fun k => mergeInto_lookup s b a k hb⟩

/-- Witness for C5 under the `keep` strategy (a strategy that would not
combine scalar values, demonstrating that record collisions deep-merge
anyway), on the record values of the test's ndjson source. -/
theorem record_collision_deep_merges_by_field_witness :
    (([("second", Value.str "baz")] : Rec).map Prod.fst).Nodup
    ∧ (mergeValue MergeStrategy.keep (Value.record [("first", Value.str "foo")])
          (Value.record [("second", Value.str "baz")])
        = Value.record (mergeInto MergeStrategy.keep [("first", Value.str "foo")]
            [("second", Value.str "baz")])
      ∧ ∀ k, lookupList (mergeInto MergeStrategy.keep [("first", Value.str "foo")]
            [("second", Value.str "baz")]) k =
          match lookupList [("first", Value.str "foo")] k,
              lookupList [("second", Value.str "baz")] k with
          | some x, some y => some (mergeValue MergeStrategy.keep x y)
          | some x, none => some x
          | none, o => o) :=
  ⟨by decide,
   record_collision_deep_merges_by_field MergeStrategy.keep
     [("first", Value.str "foo")] [("second", Value.str "baz")] (by decide)⟩

/-! ## Claims about the configuration surface -/

/-- C6 counterexample: the join type resolver also accepts the legacy
spelling of each join type — the test suite configures `full-outter` and
`outter` and requires them to select full-outer and outer semantics — so
the set of accepted `type` values is not exactly the pair `outer`,
`full-outer` the claim states. -/
theorem join_type_accepts_legacy_spelling :
    joinTypeOfString "full-outter" = some JoinType.fullOuter
    ∧ joinTypeOfString "outter" = some JoinType.outer
    ∧ "full-outter" ≠ "full-outer" ∧ "full-outter" ≠ "outer"
    ∧ "outter" ≠ "full-outer" ∧ "outter" ≠ "outer" := by
  refine ⟨by decide, by decide, by decide, by decide, by decide, by decide⟩

/-- C6 (amended): the `sharded_join` type field accepts exactly the values
`outer` and `full-outer` together with their legacy spellings `outter` and
`full-outter` (the spellings the test suite uses); each accepted value
selects the corresponding join semantics, and no other value selects a
join type. -/
theorem join_type_accepted_values (t : String) :
    ((joinTypeOfString t).isSome ↔
      t = "outer" ∨ t = "full-outer" ∨ t = "outter" ∨ t = "full-outter")
    ∧ joinTypeOfString "outer" = some JoinType.outer
    ∧ joinTypeOfString "outter" = some JoinType.outer
    ∧ joinTypeOfString "full-outer" = some JoinType.fullOuter
    ∧ joinTypeOfString "full-outter" = some JoinType.fullOuter := by
  refine ⟨?_, by decide, by decide, by decide, by decide⟩
  unfold joinTypeOfString
  by_cases h1 : t = "full-outter" ∨ t = "full-outer" <;>
    by_cases h2 : t = "outter" ∨ t = "outer" <;>
      simp [h1, h2] <;> tauto

/-- C10: with a join enabled exactly the way `TestSequenceJoins` enables it
(type, id path and iterations set, merge strategy left unconfigured), the
effective merge strategy is `array`: the default configuration carries
`array`, it resolves to the `array` strategy, and a full-outer run under it
combines two colliding writes of one field into the two-element list. -/
theorem default_merge_strategy_is_array :
    (enabledJoinConfig "full-outter" "id" 1).mergeStrategy = "array"
    ∧ strategyOfString (enabledJoinConfig "full-outter" "id" 1).mergeStrategy
        = some MergeStrategy.array
    ∧ runFullOuterAll "id" MergeStrategy.array 1
        [[[("id", Value.str "k"), ("f", Value.str "x")]],
         [[("id", Value.str "k"), ("f", Value.str "y")]]]
      = some [JoinEvent.readEv [("id", Value.str "k"), ("f", Value.str "x")],
              JoinEvent.readEv [("id", Value.str "k"), ("f", Value.str "y")],
              JoinEvent.emitEv "k" [("id", Value.str "k"),
                ("f", Value.list [Value.str "x", Value.str "y"])]] := by
  refine ⟨rfl, rfl, ?_⟩
  simp [runFullOuterAll, passResults, runFullOuterPass, drainChainFO, drainSourceFO,
    accUpdate, mergeInto, setField, mergeValue, eraseField, keyOf, lookupList, shard,
    replaceEntry, List.filter, List.mapM, List.mapM.loop, List.range_succ,
    Nat.mod_one]

/-! ## Claims about the Shard Assigner -/

/-- C9: shard assignment lies in the interval below the iteration count,
depends only on the join key and the iteration count (two records carrying
the same key are assigned the same shard whatever their other content, on
every evaluation), and with a single iteration every key lands in shard
zero, so every record is retained by the only pass. -/
theorem shard_deterministic_in_range (idPath k : String) (iterations : Nat)
    (h : 1 ≤ iterations) :
    shard k iterations < iterations
    ∧ (∀ r₁ r₂ : Rec, keyOf idPath r₁ = some k → keyOf idPath r₂ = some k →
        shardOfRecord idPath r₁ iterations = some (shard k iterations)
        ∧ shardOfRecord idPath r₂ iterations = shardOfRecord idPath r₁ iterations)
    ∧ shard k 1 = 0 := by
  refine ⟨Nat.mod_lt _ h, fun r₁ r₂ h1 h2 => ?_, Nat.mod_one _⟩
  simp [shardOfRecord, h1, h2]

/-- Witness for C9 at the iteration count of `TestSequenceJoinsBig`. -/
theorem shard_deterministic_in_range_witness :
    1 ≤ 5
    ∧ (shard "aaa" 5 < 5
      ∧ (∀ r₁ r₂ : Rec, keyOf "id" r₁ = some "aaa" → keyOf "id" r₂ = some "aaa" →
          shardOfRecord "id" r₁ 5 = some (shard "aaa" 5)
          ∧ shardOfRecord "id" r₂ 5 = shardOfRecord "id" r₁ 5)
      ∧ shard "aaa" 1 = 0) :=
  ⟨by decide, shard_deterministic_in_range "id" "aaa" 5 (by decide)⟩

/-! ## Claims about the passthrough chain driver -/

theorem batchesOf_append (xs ys : List SeqEvent) :
    batchesOf (xs ++ ys) = batchesOf xs ++ batchesOf ys := by
  simp [batchesOf]

theorem batchesOf_drainSource (msgs : List String) :
    batchesOf (drainSource msgs) = msgs.map (fun m => [m]) := by
  induction msgs with
  | nil => rfl
  | cons m ms ih => simp [drainSource, batchesOf] at *; exact ih

theorem closed_not_mem_drainSource (msgs : List String) :
    SeqEvent.closed ∉ drainSource msgs := by
  induction msgs with
  | nil => simp [drainSource]
  | cons m ms ih => simp [drainSource] at *; exact ih

theorem wellAcked_drainSource_append (msgs : List String) (evs : List SeqEvent) :
    wellAcked (drainSource msgs ++ evs) = wellAcked evs := by
  induction msgs with
  | nil => rfl
  | cons m ms ih => simp [drainSource, wellAcked] at *; exact ih

theorem driveChain_map_some (sources : List (List String)) :
    driveChain (sources.map some)
      = ((sources.map drainSource).flatten ++ [SeqEvent.closed], none) := by
  induction sources with
  | nil => rfl
  | cons src rest ih => simp [driveChain, ih]

/-- C7: with no join key configured the chain is a passthrough: every
record of every source is handed downstream as one single-record batch, in
configured source order and within-source read order, each batch is
acknowledged before anything further happens, and the component reports
closure only after the last acknowledgement; in particular the three
three-record sources of `TestSequenceHappy` produce exactly nine
single-record batches in order. -/
theorem passthrough_chain_emission :
    joinEnabled defaultShardedJoinConfig = false
    ∧ (∀ sources : List (List String),
        batchesOf (drivePassthrough sources) = sources.flatten.map (fun m => [m])
        ∧ wellAcked (drivePassthrough sources) = true)
    ∧ batchesOf (drivePassthrough
        [["foo", "bar", "baz"], ["buz", "bev", "bif"], ["qux", "quz", "qev"]])
      = [["foo"], ["bar"], ["baz"], ["buz"], ["bev"], ["bif"], ["qux"], ["quz"], ["qev"]]
    ∧ (batchesOf (drivePassthrough
        [["foo", "bar", "baz"], ["buz", "bev", "bif"], ["qux", "quz", "qev"]])).length
      = 9 := by
  refine ⟨by decide, fun sources => ⟨?_, ?_⟩, by decide, by decide⟩
  · rw [drivePassthrough, driveChain_map_some]
    induction sources with
    | nil => rfl
    | cons src rest ih =>
      simp only [List.map_cons, List.flatten_cons, List.append_assoc, List.map_append,
        batchesOf_append, batchesOf_drainSource] at *
      simp [ih]
  · rw [drivePassthrough, driveChain_map_some]
    induction sources with
    | nil => rfl
    | cons src rest ih =>
      simp only [List.map_cons, List.flatten_cons, List.append_assoc,
        wellAcked_drainSource_append] at *
      exact ih

theorem driveChain_blocked (pre : List (List String)) (rest : List (Option (List String))) :
    driveChain (pre.map some ++ none :: rest)
      = ((pre.map drainSource).flatten, some (none :: rest)) := by
  induction pre with
  | nil => rfl
  | cons src rest' ih => simp [driveChain, ih]

/-- C8: when a configured source's backing resource is absent the chain
does not abort: every batch produced by the earlier sources is still
delivered, nothing further (and no closure) is emitted while the chain is
blocked at the missing source's position, and once the resource appears
under the same position the chain resumes by delivering that source's
records before continuing with the remainder. -/
theorem blocked_source_preserves_chain :
    (∀ (pre : List (List String)) (rest : List (Option (List String))),
      (driveChain (pre.map some ++ none :: rest)).2 = some (none :: rest)
      ∧ batchesOf (driveChain (pre.map some ++ none :: rest)).1
          = pre.flatten.map (fun m => [m])
      ∧ SeqEvent.closed ∉ (driveChain (pre.map some ++ none :: rest)).1)
    ∧ ∀ (b : List String) (rest : List (Option (List String))),
        batchesOf (driveChain (some b :: rest)).1
          = b.map (fun m => [m]) ++ batchesOf (driveChain rest).1
        ∧ (driveChain (some b :: rest)).2 = (driveChain rest).2 := by
  constructor
  · intro pre rest
    rw [driveChain_blocked]
    refine ⟨rfl, ?_, ?_⟩
    · induction pre with
      | nil => rfl
      | cons src rest' ih =>
        simp only [List.map_cons, List.flatten_cons, List.map_append,
          batchesOf_append, batchesOf_drainSource]
        simp [ih]
    · induction pre with
      | nil => simp
      | cons src rest' ih =>
        simp only [List.map_cons, List.flatten_cons, List.mem_append, not_or]
        exact ⟨closed_not_mem_drainSource src, ih⟩
  · intro b rest
    refine ⟨?_, rfl⟩
    simp [driveChain, batchesOf_append, batchesOf_drainSource]

/-! ## Lemmas on the Join Accumulator table -/

theorem keysA_replaceEntry (acc : Accum) (k : String) (m : Rec) :
    keysA (replaceEntry acc k m) = keysA acc := by
  induction acc with
  | nil => rfl
  | cons kv rest ih =>
    by_cases hk : kv.1 = k
    · simp [replaceEntry, keysA, hk] at *
      exact ih
    · simp [replaceEntry, keysA, hk] at *
      exact ih

theorem accUpdate_of_none (s : MergeStrategy) (idp : String) (acc : Accum) (k : String)
    (r : Rec) (h : lookupList acc k = none) :
    accUpdate s idp acc k r = (acc ++ [(k, r)], r) := by
  simp [accUpdate, h]

theorem accUpdate_of_some (s : MergeStrategy) (idp : String) (acc : Accum) (k : String)
    (r old : Rec) (h : lookupList acc k = some old) :
    accUpdate s idp acc k r
      = (replaceEntry acc k (mergeInto s old (eraseField r idp)),
         mergeInto s old (eraseField r idp)) := by
  simp [accUpdate, h]

theorem lookupList_replaceEntry_self (acc : Accum) (k : String) (m old : Rec)
    (h : lookupList acc k = some old) :
    lookupList (replaceEntry acc k m) k = some m := by
  induction acc with
  | nil => simp at h
  | cons kv rest ih =>
    obtain ⟨k', v'⟩ := kv
    rw [lookupList_cons] at h
    by_cases hk : k' = k
    · simp [replaceEntry, hk, lookupList_cons]
    · rw [if_neg hk] at h
      simp only [replaceEntry, List.map_cons] at *
      rw [if_neg hk, lookupList_cons, if_neg hk]
      exact ih h

theorem lookup_accUpdate_self (s : MergeStrategy) (idp : String) (acc : Accum) (k : String)
    (r : Rec) :
    lookupList (accUpdate s idp acc k r).1 k = some (accUpdate s idp acc k r).2 := by
  cases h : lookupList acc k with
  | none =>
    rw [accUpdate_of_none s idp acc k r h]
    rw [lookupList_append_of_none _ _ _ h, lookupList_cons, if_pos rfl]
  | some old =>
    rw [accUpdate_of_some s idp acc k r old h]
    exact lookupList_replaceEntry_self acc k _ old h

theorem keysA_accUpdate_of_none (s : MergeStrategy) (idp : String) (acc : Accum)
    (k : String) (r : Rec) (h : lookupList acc k = none) :
    keysA (accUpdate s idp acc k r).1 = keysA acc ++ [k] := by
  rw [accUpdate_of_none s idp acc k r h]
  simp [keysA]

theorem keysA_accUpdate_of_some (s : MergeStrategy) (idp : String) (acc : Accum)
    (k : String) (r old : Rec) (h : lookupList acc k = some old) :
    keysA (accUpdate s idp acc k r).1 = keysA acc := by
  rw [accUpdate_of_some s idp acc k r old h]
  exact keysA_replaceEntry acc k _

theorem foldAcc_append (idp : String) (s : MergeStrategy) (it p : Nat)
    (xs ys : List Rec) (acc : Accum) :
    foldAcc idp s it p (xs ++ ys) acc
      = (foldAcc idp s it p xs acc).bind (fun a => foldAcc idp s it p ys a) := by
  induction xs generalizing acc with
  | nil => rfl
  | cons r rs ih =>
    simp only [List.cons_append, foldAcc]
    cases keyOf idp r with
    | none => rfl
    | some k => exact ih _

theorem foldAcc_keys (idp : String) (s : MergeStrategy) (recs : List Rec)
    (acc acc' : Accum) (h : foldAcc idp s 1 0 recs acc = some acc') :
    ((keysA acc).Nodup → (keysA acc').Nodup)
    ∧ ∀ k, k ∈ keysA acc' ↔ k ∈ keysA acc ∨ ∃ r ∈ recs, keyOf idp r = some k := by
  induction recs generalizing acc with
  | nil =>
    simp only [foldAcc, Option.some_inj] at h
    subst h
    exact ⟨id, fun k => by simp⟩
  | cons r rs ih =>
    simp only [foldAcc] at h
    cases hk : keyOf idp r with
    | none => simp only [hk] at h; cases h
    | some k0 =>
      simp only [hk] at h
      rw [show shard k0 1 = 0 from Nat.mod_one _, if_pos rfl] at h
      obtain ⟨hnd, hmem⟩ := ih _ h
      constructor
      · intro hacc
        apply hnd
        cases hl : lookupList acc k0 with
        | none =>
          rw [keysA_accUpdate_of_none s idp acc k0 r hl]
          have : k0 ∉ keysA acc := by
            have := (lookupList_none_iff acc k0).1 hl
            simpa [keysA] using this
          simp [List.nodup_append, hacc, this]
        | some old =>
          rw [keysA_accUpdate_of_some s idp acc k0 r old hl]
          exact hacc
      · intro k
        rw [hmem k]
        have hup : k ∈ keysA (accUpdate s idp acc k0 r).1 ↔ k ∈ keysA acc ∨ k = k0 := by
          cases hl : lookupList acc k0 with
          | none => rw [keysA_accUpdate_of_none s idp acc k0 r hl]; simp
          | some old =>
            rw [keysA_accUpdate_of_some s idp acc k0 r old hl]
            constructor
            · exact fun hh => Or.inl hh
            · rintro (hh | rfl)
              · exact hh
              · have := (lookupList_none_iff acc k).2
                by_contra hmem'
                exact absurd hl (by rw [(lookupList_none_iff acc k).2 (by simpa [keysA] using hmem')]; simp)
        rw [hup]
        constructor
        · rintro ((hh | rfl) | ⟨r', hr', hkr⟩)
          · exact Or.inl hh
          · exact Or.inr ⟨r, by simp, hk⟩
          · exact Or.inr ⟨r', by simp [hr'], hkr⟩
        · rintro (hh | ⟨r', hr', hkr⟩)
          · exact Or.inl (Or.inl hh)
          · rcases List.mem_cons.1 hr' with rfl | hr''
            · refine Or.inl (Or.inr ?_)
              rw [hk] at hkr
              injection hkr with he
              exact he.symm
            · exact Or.inr ⟨r', hr'', hkr⟩


/-! ## Lemmas relating the chain driver to the accumulator fold -/

theorem drainSourceFO_eq (idp : String) (s : MergeStrategy) (it p : Nat)
    (rs : List Rec) (acc : Accum) :
    drainSourceFO idp s it p rs acc
      = (foldAcc idp s it p rs acc).map (fun a => (a, rs.map JoinEvent.readEv)) := by
  induction rs generalizing acc with
  | nil => rfl
  | cons r rest ih =>
    simp only [drainSourceFO, foldAcc]
    cases hk : keyOf idp r with
    | none => simp
    | some k =>
      simp only [hk, ih]
      cases foldAcc idp s it p rest
          (if shard k it = p then (accUpdate s idp acc k r).1 else acc) <;> simp

theorem drainChainFO_eq (idp : String) (s : MergeStrategy) (it p : Nat)
    (sources : List (List Rec)) (acc : Accum) :
    drainChainFO idp s it p sources acc
      = (foldAcc idp s it p sources.flatten acc).map
          (fun a => (a, sources.flatten.map JoinEvent.readEv)) := by
  induction sources generalizing acc with
  | nil => rfl
  | cons src rest ih =>
    simp only [drainChainFO, List.flatten_cons, foldAcc_append, drainSourceFO_eq, ih]
    cases hsrc : foldAcc idp s it p src acc with
    | none => rfl
    | some acc1 =>
      cases h2 : foldAcc idp s it p rest.flatten acc1 with
      | none => simp [h2]
      | some a => simp [h2]

theorem runFullOuterPass_eq (idp : String) (s : MergeStrategy) (it p : Nat)
    (sources : List (List Rec)) :
    runFullOuterPass idp s it p sources
      = (foldAcc idp s it p sources.flatten []).map
          (fun acc => sources.flatten.map JoinEvent.readEv
            ++ acc.map (fun kv => JoinEvent.emitEv kv.1 kv.2)) := by
  rw [runFullOuterPass, drainChainFO_eq]
  cases foldAcc idp s it p sources.flatten [] <;> simp

theorem passResults_one (f : Nat → Option (List JoinEvent)) :
    passResults 1 f = f 0 := by
  simp [passResults, List.range_succ, List.mapM, List.mapM.loop]

theorem emitKeys_append (xs ys : List JoinEvent) :
    emitKeys (xs ++ ys) = emitKeys xs ++ emitKeys ys := by
  simp [emitKeys]

theorem readRecs_append (xs ys : List JoinEvent) :
    readRecs (xs ++ ys) = readRecs xs ++ readRecs ys := by
  simp [readRecs]

theorem emitKeys_readEvs (rs : List Rec) : emitKeys (rs.map JoinEvent.readEv) = [] := by
  induction rs with
  | nil => rfl
  | cons r rest ih =>
    show emitKeys (rest.map JoinEvent.readEv) = []
    exact ih

theorem emitKeys_emitEvs (acc : Accum) :
    emitKeys (acc.map (fun kv => JoinEvent.emitEv kv.1 kv.2)) = keysA acc := by
  induction acc with
  | nil => rfl
  | cons kv rest ih =>
    show kv.1 :: emitKeys (rest.map (fun kv => JoinEvent.emitEv kv.1 kv.2))
      = kv.1 :: keysA rest
    rw [ih]

theorem readRecs_readEvs (rs : List Rec) : readRecs (rs.map JoinEvent.readEv) = rs := by
  induction rs with
  | nil => rfl
  | cons r rest ih =>
    show r :: readRecs (rest.map JoinEvent.readEv) = r :: rest
    rw [ih]

theorem readRecs_emitEvs (acc : Accum) :
    readRecs (acc.map (fun kv => JoinEvent.emitEv kv.1 kv.2)) = [] := by
  induction acc with
  | nil => rfl
  | cons kv rest ih =>
    show readRecs (rest.map (fun kv => JoinEvent.emitEv kv.1 kv.2)) = []
    exact ih

theorem filter_isRead_readEvs (rs : List Rec) :
    (rs.map JoinEvent.readEv).filter JoinEvent.isRead = rs.map JoinEvent.readEv := by
  induction rs with
  | nil => rfl
  | cons r rest ih =>
    show JoinEvent.readEv r :: (rest.map JoinEvent.readEv).filter JoinEvent.isRead
      = JoinEvent.readEv r :: rest.map JoinEvent.readEv
    rw [ih]

theorem filter_isRead_emitEvs (acc : Accum) :
    (acc.map (fun kv => JoinEvent.emitEv kv.1 kv.2)).filter JoinEvent.isRead = [] := by
  induction acc with
  | nil => rfl
  | cons kv rest ih =>
    show ((rest.map (fun kv => JoinEvent.emitEv kv.1 kv.2)).filter JoinEvent.isRead : List JoinEvent) = []
    exact ih

theorem filter_isEmit_readEvs (rs : List Rec) :
    (rs.map JoinEvent.readEv).filter JoinEvent.isEmit = [] := by
  induction rs with
  | nil => rfl
  | cons r rest ih =>
    show ((rest.map JoinEvent.readEv).filter JoinEvent.isEmit : List JoinEvent) = []
    exact ih

theorem filter_isEmit_emitEvs (acc : Accum) :
    (acc.map (fun kv => JoinEvent.emitEv kv.1 kv.2)).filter JoinEvent.isEmit
      = acc.map (fun kv => JoinEvent.emitEv kv.1 kv.2) := by
  induction acc with
  | nil => rfl
  | cons kv rest ih =>
    show JoinEvent.emitEv kv.1 kv.2
        :: (rest.map (fun kv => JoinEvent.emitEv kv.1 kv.2)).filter JoinEvent.isEmit
      = JoinEvent.emitEv kv.1 kv.2 :: rest.map (fun kv => JoinEvent.emitEv kv.1 kv.2)
    rw [ih]


/-! ## Claims about the join runs -/

/-- C1: under the full-outer join type with a single iteration, a
successful run reads every record of every configured source in order, and
the emitted Transactions carry exactly the join keys seen during the pass:
no key is lost, no key is emitted twice, and every emission comes after
every read (nothing is emitted before all sources are exhausted). -/
theorem full_outer_single_pass_emits_each_key_once (idPath : String) (s : MergeStrategy)
    (sources : List (List Rec)) (tr : List JoinEvent)
    (h : runFullOuterAll idPath s 1 sources = some tr) :
    (emitKeys tr).Nodup
    ∧ (∀ k, k ∈ emitKeys tr ↔ ∃ r ∈ sources.flatten, keyOf idPath r = some k)
    ∧ readRecs tr = sources.flatten
    ∧ tr = tr.filter JoinEvent.isRead ++ tr.filter JoinEvent.isEmit := by
  rw [runFullOuterAll, passResults_one, runFullOuterPass_eq] at h
  cases hacc : foldAcc idPath s 1 0 sources.flatten [] with
  | none => rw [hacc] at h; cases h
  | some acc =>
    rw [hacc] at h
    have h' : tr = sources.flatten.map JoinEvent.readEv
        ++ acc.map (fun kv => JoinEvent.emitEv kv.1 kv.2) := by
      simpa using h.symm
    subst h'
    obtain ⟨hnd, hmem⟩ := foldAcc_keys idPath s sources.flatten [] acc hacc
    refine ⟨?_, ?_, ?_, ?_⟩
    · rw [emitKeys_append, emitKeys_readEvs, emitKeys_emitEvs, List.nil_append]
      exact hnd (by simp [keysA])
    · intro k
      rw [emitKeys_append, emitKeys_readEvs, emitKeys_emitEvs, List.nil_append]
      have hk := hmem k
      simpa [keysA] using hk
    · rw [readRecs_append, readRecs_readEvs, readRecs_emitEvs, List.append_nil]
    · rw [List.filter_append, List.filter_append, filter_isRead_readEvs,
        filter_isRead_emitEvs, filter_isEmit_readEvs, filter_isEmit_emitEvs,
        List.append_nil, List.nil_append]


/-- Witness for C1 on the spec's scenario: source A with keys a, b, c and
source B with keys a, c emit exactly the key union, each exactly once,
after all reads. -/
theorem full_outer_single_pass_emits_each_key_once_witness :
    runFullOuterAll "id" MergeStrategy.array 1 sampleJoinSources = some sampleJoinTrace
    ∧ ((emitKeys sampleJoinTrace).Nodup
      ∧ (∀ k, k ∈ emitKeys sampleJoinTrace ↔
          ∃ r ∈ sampleJoinSources.flatten, keyOf "id" r = some k)
      ∧ readRecs sampleJoinTrace = sampleJoinSources.flatten
      ∧ sampleJoinTrace = sampleJoinTrace.filter JoinEvent.isRead
          ++ sampleJoinTrace.filter JoinEvent.isEmit) :=
  have h : runFullOuterAll "id" MergeStrategy.array 1 sampleJoinSources
      = some sampleJoinTrace := by
    simp [sampleJoinSources, sampleJoinTrace, runFullOuterAll, passResults,
      runFullOuterPass, drainChainFO, drainSourceFO, accUpdate, mergeInto, setField,
      mergeValue, eraseField, keyOf, lookupList, shard, replaceEntry, List.filter,
      List.mapM, List.mapM.loop, List.range_succ, Nat.mod_one]
  ⟨h, full_outer_single_pass_emits_each_key_once "id" MergeStrategy.array
    sampleJoinSources sampleJoinTrace h⟩

theorem emitEntries_emitEvs (l : List (String × Rec)) :
    emitEntries (l.map (fun kv => JoinEvent.emitEv kv.1 kv.2)) = l := by
  induction l with
  | nil => rfl
  | cons kv rest ih =>
    show (kv.1, kv.2) :: emitEntries (rest.map (fun kv => JoinEvent.emitEv kv.1 kv.2))
      = kv :: rest
    rw [ih]

theorem drainFinalOuter_spec (idp : String) (s : MergeStrategy) (rs : List Rec)
    (acc accF : Accum) (emits : List (String × Rec))
    (h : drainFinalOuter idp s 1 0 rs acc = some (accF, emits)) :
    emits.length = rs.length
    ∧ (∀ p ∈ emits, ∃ r ∈ rs, keyOf idp r = some p.1)
    ∧ ∀ i, i < rs.length →
        ∃ k e, keyOf idp (rs.getD i []) = some k
          ∧ emits.getD i ("", []) = (k, e)
          ∧ ∃ a, foldAcc idp s 1 0 (rs.take (i + 1)) acc = some a
              ∧ lookupList a k = some e := by
  induction rs generalizing acc emits with
  | nil =>
    simp only [drainFinalOuter, Option.some_inj, Prod.mk.injEq] at h
    obtain ⟨rfl, rfl⟩ := h
    exact ⟨rfl, by simp, fun i hi => absurd hi (by simp)⟩
  | cons r rest ih =>
    simp only [drainFinalOuter] at h
    cases hk : keyOf idp r with
    | none => simp only [hk] at h; cases h
    | some k0 =>
      simp only [hk] at h
      rw [show shard k0 1 = 0 from Nat.mod_one _, if_pos rfl] at h
      cases hrec : drainFinalOuter idp s 1 0 rest (accUpdate s idp acc k0 r).1 with
      | none => rw [hrec] at h; cases h
      | some pr =>
        obtain ⟨accF', emits'⟩ := pr
        rw [hrec] at h
        simp only [Option.some_inj, Prod.mk.injEq] at h
        obtain ⟨rfl, rfl⟩ := h
        obtain ⟨hlen, hkeys, hcum⟩ := ih _ _ hrec
        refine ⟨by simp [hlen], ?_, ?_⟩
        · intro p hp
          rcases List.mem_cons.1 hp with rfl | hp'
          · exact ⟨r, List.mem_cons_self _ _, hk⟩
          · obtain ⟨r', hr', hkr⟩ := hkeys p hp'
            exact ⟨r', List.mem_cons_of_mem _ hr', hkr⟩
        · intro i hi
          cases i with
          | zero =>
            refine ⟨k0, (accUpdate s idp acc k0 r).2, by simpa using hk, rfl, ?_⟩
            refine ⟨(accUpdate s idp acc k0 r).1, ?_, lookup_accUpdate_self s idp acc k0 r⟩
            simp only [List.take_succ_cons, List.take_zero, foldAcc, hk]
            rw [show shard k0 1 = 0 from Nat.mod_one _, if_pos rfl]
          | succ j =>
            have hj : j < rest.length := by simpa using hi
            obtain ⟨k, e, h1, h2, a, h3, h4⟩ := hcum j hj
            refine ⟨k, e, by simpa using h1, by simpa using h2, a, ?_, h4⟩
            simp only [List.take_succ_cons, foldAcc, hk]
            rw [show shard k0 1 = 0 from Nat.mod_one _, if_pos rfl]
            exact h3


/-- C2: under the outer (final-source-anchored) join type with a single
iteration, a successful run emits exactly one Transaction per record read
from the final source, every emitted key stems from a final-source record
(keys seen only in earlier sources are never emitted), and the i-th
emission carries the cumulative accumulated state for its key after all
earlier-source records and the first i+1 final-source records. -/
theorem outer_join_emits_per_final_record (idPath : String) (s : MergeStrategy)
    (earlier : List (List Rec)) (finalSrc : List Rec) (tr : List JoinEvent)
    (h : runOuterAll idPath s 1 earlier finalSrc = some tr) :
    (emitEntries tr).length = finalSrc.length
    ∧ (∀ p ∈ emitEntries tr, ∃ r ∈ finalSrc, keyOf idPath r = some p.1)
    ∧ ∀ i, i < finalSrc.length →
        ∃ k e, keyOf idPath (finalSrc.getD i []) = some k
          ∧ (emitEntries tr).getD i ("", []) = (k, e)
          ∧ entryAfter idPath s (earlier.flatten ++ finalSrc.take (i + 1)) k = some e := by
  rw [runOuterAll, passResults_one, runOuterPass] at h
  cases hacc : foldAcc idPath s 1 0 earlier.flatten [] with
  | none => simp only [hacc] at h; cases h
  | some acc =>
    simp only [hacc] at h
    cases hfin : drainFinalOuter idPath s 1 0 finalSrc acc with
    | none => simp only [hfin] at h; cases h
    | some pr =>
      obtain ⟨accF, emits⟩ := pr
      simp only [hfin] at h
      have htr : tr = emits.map (fun kv => JoinEvent.emitEv kv.1 kv.2) := by
        simpa using h.symm
      subst htr
      rw [emitEntries_emitEvs]
      obtain ⟨hlen, hkeys, hcum⟩ := drainFinalOuter_spec idPath s finalSrc acc accF emits hfin
      refine ⟨hlen, hkeys, fun i hi => ?_⟩
      obtain ⟨k, e, h1, h2, a, h3, h4⟩ := hcum i hi
      refine ⟨k, e, h1, h2, ?_⟩
      simp [entryAfter, foldAcc_append, hacc, h3, h4]


/-- Witness for C2 on a chain whose final source repeats key a: three
final records give three emissions, key b of the final source is emitted,
and the second emission for key a reflects the accumulated state. -/
theorem outer_join_emits_per_final_record_witness :
    runOuterAll "id" MergeStrategy.array 1 sampleOuterEarlier sampleOuterFinal
      = some sampleOuterTrace
    ∧ ((emitEntries sampleOuterTrace).length = sampleOuterFinal.length
      ∧ (∀ p ∈ emitEntries sampleOuterTrace,
          ∃ r ∈ sampleOuterFinal, keyOf "id" r = some p.1)
      ∧ ∀ i, i < sampleOuterFinal.length →
          ∃ k e, keyOf "id" (sampleOuterFinal.getD i []) = some k
            ∧ (emitEntries sampleOuterTrace).getD i ("", []) = (k, e)
            ∧ entryAfter "id" MergeStrategy.array
                (sampleOuterEarlier.flatten ++ sampleOuterFinal.take (i + 1)) k
              = some e) :=
  have h : runOuterAll "id" MergeStrategy.array 1 sampleOuterEarlier sampleOuterFinal
      = some sampleOuterTrace := by
    simp [sampleOuterEarlier, sampleOuterFinal, sampleOuterTrace, runOuterAll,
      passResults, runOuterPass, foldAcc, drainFinalOuter, accUpdate, mergeInto,
      setField, mergeValue, eraseField, keyOf, lookupList, shard, replaceEntry,
      List.filter, List.mapM, List.mapM.loop, List.range_succ, Nat.mod_one]
  ⟨h, outer_join_emits_per_final_record "id" MergeStrategy.array
    sampleOuterEarlier sampleOuterFinal sampleOuterTrace h⟩

/-! ## Model validation against the test suite's expected outputs -/

/-- The modelled full-outer run reproduces, entry for entry, the expected
output of the test `TestSequenceJoins`: two csv sources and one ndjson
source joined on `id` with the default strategy yield the three merged
records of the test (the hobby collision as a list, the two stuff records
deep-merged, the id fields scalar). -/
theorem fullOuter_model_matches_join_test :
    (runFullOuterAll "id" MergeStrategy.array 1
        [[[("id", Value.str "aaa"), ("name", Value.str "A"), ("age", Value.str "20")],
          [("id", Value.str "bbb"), ("name", Value.str "B"), ("age", Value.str "21")],
          [("id", Value.str "ccc"), ("name", Value.str "B"), ("age", Value.str "22")],
          [("id", Value.str "ccc"), ("hobby", Value.str "fencing")],
          [("id", Value.str "aaa"), ("hobby", Value.str "running")],
          [("id", Value.str "aaa"), ("hobby", Value.str "gaming")]],
         [[("id", Value.str "aaa"),
           ("stuff", Value.record [("first", Value.str "foo")])],
          [("id", Value.str "bbb"),
           ("stuff", Value.record [("first", Value.str "bar")])],
          [("id", Value.str "aaa"),
           ("stuff", Value.record [("second", Value.str "baz")])]]]).map emitEntries
      = some
        [("aaa",
          [("id", Value.str "aaa"), ("name", Value.str "A"), ("age", Value.str "20"),
           ("hobby", Value.list [Value.str "running", Value.str "gaming"]),
           ("stuff", Value.record [("first", Value.str "foo"),
             ("second", Value.str "baz")])]),
         ("bbb",
          [("id", Value.str "bbb"), ("name", Value.str "B"), ("age", Value.str "21"),
           ("stuff", Value.record [("first", Value.str "bar")])]),
         ("ccc",
          [("id", Value.str "ccc"), ("name", Value.str "B"), ("age", Value.str "22"),
           ("hobby", Value.str "fencing")])] := by
  simp [runFullOuterAll, passResults, runFullOuterPass, drainChainFO, drainSourceFO,
    accUpdate, mergeInto, setField, mergeValue, eraseField, keyOf, lookupList, shard,
    replaceEntry, List.filter, List.mapM, List.mapM.loop, List.range_succ, Nat.mod_one,
    emitEntries, List.filterMap_cons]

end SequenceJoin
